import Mathlib

/-!
Shallow embedding of the benchpark scaling engine
(`lib/benchpark/scaling.py`): the scaling-order planner
(`configure_scaling_policy`), the sweep generator
(`scale_experiment_variables`) and the strong/weak/throughput selectors.

Variable sets are modelled as association lists (Python dicts preserve
insertion order).  Keys are either scalar names (`str`) or tuples of
component names; values are either a single integer or a list of integers.
Fallible Python operations (raised exceptions) are modelled with `Except`.
-/

set_option autoImplicit false

/-- A variable name: a scalar identifier or a tuple of component names. -/
inductive Key where
  | str (s : String)
  | tup (ss : List String)
deriving DecidableEq

/-- A variable value: a single integer or a list of integers. -/
inductive Val where
  | int (n : Int)
  | list (l : List Int)
deriving DecidableEq

/-- A variable set: an insertion-ordered mapping from names to values. -/
abbrev VarSet := List (Key × Val)

/-- Dictionary lookup on the association list (first matching key). -/
def lookupVar : VarSet → Key → Option Val
  | [], _ => none
  | (k, v) :: rest, q => if k = q then some v else lookupVar rest q

/-- Python truthiness of a key: `not scaling_variable` is true for `""`,
`()` and `None`; the `None` case is handled by `Option` in the caller. -/
def keyFalsy : Key → Bool
  | .str s => s.isEmpty
  | .tup ss => ss.isEmpty

/-- Python `min` over a non-empty integer list (left fold). -/
def listMin : List Int → Int
  | [] => 0
  | x :: xs => xs.foldl min x

/-- Python `val.index(min(val))`: index of the first occurrence of the
minimum element. -/
def minIndex (l : List Int) : Nat := l.indexOf (listMin l)

/-- Dimension count used by `configure_scaling_policy`: the length of the
first list-valued entry in insertion order, 1 if there is none. -/
def nDims : VarSet → Nat
  | [] => 1
  | (_, .list l) :: _ => l.length
  | (_, .int _) :: rest => nDims rest

/-- The exceptions the engine can raise. -/
inductive ScaleError where
  | invalidDriver
  | strIntExpected
  | keyValLenMismatch
  | dimMismatch
  | tupListExpected
  | keyError
  | emptyMin
  | zeroDiv
  | indexErr
  | stopIteration
deriving DecidableEq

/-- `configure_scaling_policy`: starting from the index of the minimum
value of the driver (0 for a scalar driver), the dimension indices in
ascending round-robin order.  `keyError` models the `KeyError` raised by
`input_variables[scaling_variable]` on an absent driver; `emptyMin`
models the `ValueError` raised by `min([])`. -/
def configure_scaling_policy (vars : VarSet) (driver : Key) :
    Except ScaleError (List Nat) :=
  let n_dims := nDims vars
  match lookupVar vars driver with
  | none => .error .keyError
  | some (.int _) => .ok ((List.range n_dims).map fun i => (0 + i) % n_dims)
  | some (.list []) => .error .emptyMin
  | some (.list (x :: xs)) =>
      .ok ((List.range n_dims).map fun i => (minIndex (x :: xs) + i) % n_dims)

/-- The validation loop of `scale_experiment_variables`.  `nd` threads the
Python `n_dims` local through the loop; `0` plays the role of the falsy
values `None` and `0` (`if not n_dims: n_dims = len(v)`). -/
def validateVars : VarSet → Nat → Except ScaleError Nat
  | [], nd => .ok nd
  | (k, v) :: rest, nd =>
    match k, v with
    | .str _, .int _ => validateVars rest nd
    | .str _, .list _ => .error .strIntExpected
    | .tup ks, .list vs =>
        if ks.length ≠ vs.length then .error .keyValLenMismatch
        else
          let nd' := if nd = 0 then vs.length else nd
          if vs.length ≠ nd' then .error .dimMismatch
          else validateVars rest nd'
    | .tup _, .int _ => .error .tupListExpected

/-- Per-dimension accumulators seeded from a value:
`[[v] for v in val] if isinstance(val, list) else [[val]]`. -/
def initCols : Val → List (List Int)
  | .list l => l.map fun v => [v]
  | .int n => [[n]]

/-- Python `col[-1]`; every accumulator column is non-empty by
construction, so the default is never reached. -/
def lastD (col : List Int) : Int := col.getLastD 0

/-- One experiment step on a multi-column accumulator: append to every
column, multiplying the previous value by `factor` exactly on the column
whose index equals `target` (`for p_idx, p_val in enumerate(param)`). -/
def appendScaled (factor : Int) (target : Nat) : Nat → List (List Int) → List (List Int)
  | _, [] => []
  | i, col :: rest =>
      (col ++ [if i = target then lastD col * factor else lastD col]) ::
        appendScaled factor target (i + 1) rest

/-- One experiment step on one variable's accumulator.  A single-column
accumulator is always scaled; otherwise the column selected by
`order[exp_num % len(order)]` is scaled.  `zeroDiv` models the
`ZeroDivisionError` of `exp_num % len(order)` when the order is empty and
the accumulator has at least two columns. -/
def stepParam (order : List Nat) (factor : Int) (expNum : Nat)
    (param : List (List Int)) : Except ScaleError (List (List Int)) :=
  match param with
  | [col] => .ok [col ++ [lastD col * factor]]
  | [] => .ok []
  | _ =>
    if order.isEmpty then .error .zeroDiv
    else .ok (appendScaled factor (order.getD (expNum % order.length) 0) 0 param)

/-- One experiment step over all variables, in insertion order. -/
def stepVars (order : List Nat) (factor : Int) (expNum : Nat) :
    List (Key × List (List Int)) → Except ScaleError (List (Key × List (List Int)))
  | [] => .ok []
  | (k, p) :: rest =>
    match stepParam order factor expNum p with
    | .error e => .error e
    | .ok p' =>
      match stepVars order factor expNum rest with
      | .error e => .error e
      | .ok rest' => .ok ((k, p') :: rest')

/-- The experiment loop `for exp_num in range(num_exprs - 1)`, counting
`iters` remaining steps with `expNum` the current experiment index. -/
def runSweep (order : List Nat) (factor : Int) :
    Nat → Nat → List (Key × List (List Int)) →
    Except ScaleError (List (Key × List (List Int)))
  | 0, _, st => .ok st
  | iters + 1, expNum, st =>
    match stepVars order factor expNum st with
    | .error e => .error e
    | .ok st' => runSweep order factor iters (expNum + 1) st'

/-- An output value: a bare integer (sequence of length 1 reduced) or the
full per-experiment sequence. -/
inductive OutVal where
  | int (n : Int)
  | list (l : List Int)
deriving DecidableEq

/-- `v[i] if len(v[i]) > 1 else v[i][0]`; accumulator columns are
non-empty by construction, so the default is never reached. -/
def reduceCol (col : List Int) : OutVal :=
  if 1 < col.length then .list col else .int (col.headD 0)

/-- Python dict assignment on the output mapping: update in place if the
key exists (keeping its position), otherwise append. -/
def upsert : List (String × OutVal) → String → OutVal → List (String × OutVal)
  | [], k, v => [(k, v)]
  | (k', v') :: rest, k, v =>
      if k' = k then (k, v) :: rest else (k', v') :: upsert rest k v

/-- Lookup on the output mapping. -/
def lookupStr : List (String × OutVal) → String → Option OutVal
  | [], _ => none
  | (k, v) :: rest, q => if k = q then some v else lookupStr rest q

/-- Unpacking a tuple-keyed entry: `for i in range(len(k)):
output[k[i]] = reduce(v[i])`.  `indexErr` models the `IndexError` when the
key tuple is longer than the column list. -/
def unpackTuple : List String → List (List Int) → List (String × OutVal) →
    Except ScaleError (List (String × OutVal))
  | [], _, out => .ok out
  | _ :: _, [], _ => .error .indexErr
  | n :: ns, c :: cs, out => unpackTuple ns cs (upsert out n (reduceCol c))

/-- The output-assembly loop over all scaled variables. -/
def unpackAll : List (Key × List (List Int)) → List (String × OutVal) →
    Except ScaleError (List (String × OutVal))
  | [], out => .ok out
  | (.tup ns, cols) :: rest, out =>
    match unpackTuple ns cols out with
    | .error e => .error e
    | .ok out' => unpackAll rest out'
  | (.str s, cols) :: rest, out =>
      match cols with
      | [] => .error .indexErr
      | c :: _ => unpackAll rest (upsert out s (reduceCol c))

/-- Driver resolution: `if not scaling_variable: scaling_variable =
next(iter(input_variables))` — a missing or falsy driver is replaced by
the first key. -/
def resolveDriver (k0 : Key) (driver? : Option Key) : Key :=
  match driver? with
  | none => k0
  | some d => if keyFalsy d then k0 else d

/-- The body of `scale_experiment_variables` after the number of
remaining experiments has been computed (`range(num_exprs - 1)`). -/
def scaleAux (vars : VarSet) (factor : Int) (iters : Nat)
    (driver? : Option Key) : Except ScaleError (List (String × OutVal)) :=
  match vars with
  | [] => .ok []
  | (k0, _) :: _ =>
    let driver := resolveDriver k0 driver?
    if (lookupVar vars driver).isNone then .error .invalidDriver
    else
      match validateVars vars 0 with
      | .error e => .error e
      | .ok _ =>
        match configure_scaling_policy vars driver with
        | .error e => .error e
        | .ok order =>
          match runSweep order factor iters 0
              (vars.map fun kv => (kv.1, initCols kv.2)) with
          | .error e => .error e
          | .ok st => unpackAll st []

/-- `scale_experiment_variables(input_variables, scaling_factor,
num_exprs, scaling_variable=None)`. -/
def scale_experiment_variables (vars : VarSet) (factor : Int)
    (numExprs : Int) (driver? : Option Key) :
    Except ScaleError (List (String × OutVal)) :=
  scaleAux vars factor (numExprs - 1).toNat driver?

/-- Python dict union `a | b` (keys of `a` first in `a`'s order, then the
keys of `b` absent from `a`; on a common key the value of `b` wins). -/
def dictUnion (a b : VarSet) : VarSet :=
  (a.map fun kv => (kv.1, (lookupVar b kv.1).getD kv.2)) ++
    b.filter fun kv => (lookupVar a kv.1).isNone

/-- `generate_strong_scaling_params`. -/
def generate_strong_scaling_params (resource : VarSet) (factor numExprs : Int) :
    Except ScaleError (List (String × OutVal)) :=
  scale_experiment_variables resource factor numExprs none

/-- `generate_weak_scaling_params`: drives the sweep of the merged set by
the first resource key.  `stopIteration` models the `StopIteration`
raised by `next(iter(resource_variable))` on an empty resource set. -/
def generate_weak_scaling_params (resource problem : VarSet)
    (factor numExprs : Int) : Except ScaleError (List (String × OutVal)) :=
  match resource with
  | [] => .error .stopIteration
  | (k0, _) :: _ =>
      scale_experiment_variables (dictUnion resource problem) factor numExprs
        (some k0)

/-- `generate_throughput_scaling_params`. -/
def generate_throughput_scaling_params (problem : VarSet)
    (factor numExprs : Int) : Except ScaleError (List (String × OutVal)) :=
  scale_experiment_variables problem factor numExprs none

/-- The starting index of the scaling order as the spec words it: the
index of the first occurrence of the minimum of the driver's value when
that value is a list, 0 otherwise. -/
def driverStart (vars : VarSet) (driver : Key) : Nat :=
  match lookupVar vars driver with
  | some (.list l) => minIndex l
  | _ => 0

/-- How many of the experiment steps `expNum, expNum+1, …` (for `iters`
steps) select dimension `i`, per the selection rule of the experiment
loop (`order[exp_num % len(order)]`). -/
def cntFrom (order : List Nat) : Nat → Nat → Nat → Nat
  | 0, _, _ => 0
  | iters + 1, expNum, i =>
      (if order.getD (expNum % order.length) 0 = i then 1 else 0) +
        cntFrom order iters (expNum + 1) i

/-- How many of the first `n` experiment steps scale dimension `i`. -/
def dimScaleCount (order : List Nat) (n i : Nat) : Nat := cntFrom order n 0 i

/-- The unpacked output of an unscaled (single-experiment) sweep: every
component reduced to its base integer. -/
def baseUnpack : VarSet → List (String × OutVal)
  | [] => []
  | (.str s, .int m) :: rest => (s, .int m) :: baseUnpack rest
  | (.tup ks, .list vs) :: rest =>
      List.zipWith (fun s v => (s, OutVal.int v)) ks vs ++ baseUnpack rest
  | (.str _, .list _) :: rest => baseUnpack rest
  | (.tup _, .int _) :: rest => baseUnpack rest

/-- Well-typedness of one entry, as the validation loop checks it:
scalar names carry integers, tuple names carry integer lists of the same
length as the name. -/
def typedEntry : Key × Val → Bool
  | (.str _, .int _) => true
  | (.tup ks, .list vs) => ks.length == vs.length
  | _ => false

/-- A value whose list form is non-empty (`min` of its value succeeds). -/
def valNonempty : Val → Bool
  | .list [] => false
  | _ => true

/-- The driver resolves to an entry on which the planner cannot raise:
present, and not an empty list. -/
def driverOk (vars : VarSet) (drv : Key) : Bool :=
  match lookupVar vars drv with
  | some (.int _) => true
  | some (.list (_ :: _)) => true
  | _ => false

/-- A value whose list form has length `L` (scalars are unconstrained). -/
def lenIs (L : Nat) : Val → Bool
  | .list l => l.length == L
  | .int _ => true

/-- A value whose list form has the set's shared positive dimensionality
`K`. -/
def entryDimsOk (K : Nat) : Val → Bool
  | .list l => (l.length == K) && !l.isEmpty
  | .int _ => true

/-- All component names emitted by the output mapping, in emission
order. -/
def namesOf : VarSet → List String
  | [] => []
  | (.str s, _) :: rest => s :: namesOf rest
  | (.tup ks, _) :: rest => ks ++ namesOf rest

/-- The pure iteration of the experiment loop on a single accumulator,
used to characterise `runSweep` on single-variable states. -/
def iterCols (order : List Nat) (factor : Int) : Nat → Nat → List (List Int) → List (List Int)
  | 0, _, cols => cols
  | m + 1, e, cols =>
      iterCols order factor m (e + 1)
        (appendScaled factor (order.getD (e % order.length) 0) 0 cols)

/-- How many of the experiment indices `e, e+1, …` (`m` of them) have
residue `r` modulo `k`. -/
def cntMod (k r : Nat) : Nat → Nat → Nat
  | 0, _ => 0
  | m + 1, e => (if e % k = r then 1 else 0) + cntMod k r m (e + 1)

deriving instance DecidableEq for Except

/-! ### Basic lookup lemmas -/

theorem lookupVar_append_some {xs : VarSet} (ys : VarSet) {q : Key} {v : Val}
    (h : lookupVar xs q = some v) : lookupVar (xs ++ ys) q = some v := by
  induction xs with
  | nil => exact absurd h (by simp [lookupVar])
  | cons kv rest ih =>
      obtain ⟨k1, v1⟩ := kv
      simp only [lookupVar, List.cons_append] at h ⊢
      by_cases hk : k1 = q
      · simpa [hk] using h
      · simp only [hk, if_false] at h ⊢
        exact ih h

theorem lookupVar_append_none {xs : VarSet} (ys : VarSet) {q : Key}
    (h : lookupVar xs q = none) : lookupVar (xs ++ ys) q = lookupVar ys q := by
  induction xs with
  | nil => rfl
  | cons kv rest ih =>
      obtain ⟨k1, v1⟩ := kv
      simp only [lookupVar, List.cons_append] at h ⊢
      by_cases hk : k1 = q
      · simp [hk] at h
      · simp only [hk, if_false] at h ⊢
        exact ih h

theorem lookupVar_map (g : Key → Val → Val) (xs : VarSet) (q : Key) :
    lookupVar (xs.map fun kv => (kv.1, g kv.1 kv.2)) q =
      (lookupVar xs q).map (g q) := by
  induction xs with
  | nil => rfl
  | cons kv rest ih =>
      obtain ⟨k1, v1⟩ := kv
      simp only [List.map_cons, lookupVar]
      by_cases hk : k1 = q
      · subst hk; simp
      · simp [hk, ih]

theorem lookupVar_filter (p : Key × Val → Bool) (xs : VarSet) (q : Key)
    (hq : ∀ v, p (q, v) = true) :
    lookupVar (xs.filter p) q = lookupVar xs q := by
  induction xs with
  | nil => rfl
  | cons kv rest ih =>
      obtain ⟨k1, v1⟩ := kv
      by_cases hk : k1 = q
      · subst hk
        simp [List.filter_cons, hq v1, lookupVar]
      · cases hp : p (k1, v1) with
        | true => simp [List.filter_cons, hp, lookupVar, hk, ih]
        | false => simp [List.filter_cons, hp, lookupVar, hk, ih]

/-- On any key of the problem-size set, the merged set of weak scaling
holds the problem-size value (Python `a | b`: right operand wins). -/
theorem lookupVar_dictUnion_right (a p : VarSet) (q : Key) (w : Val)
    (h : lookupVar p q = some w) : lookupVar (dictUnion a p) q = some w := by
  unfold dictUnion
  cases ha : lookupVar a q with
  | some v =>
      have hm : lookupVar (a.map fun kv => (kv.1, (lookupVar p kv.1).getD kv.2)) q =
          some ((lookupVar p q).getD v) := by
        rw [lookupVar_map (fun k v => (lookupVar p k).getD v) a q, ha]; rfl
      rw [h] at hm
      exact lookupVar_append_some _ hm
  | none =>
      have hm : lookupVar (a.map fun kv => (kv.1, (lookupVar p kv.1).getD kv.2)) q = none := by
        rw [lookupVar_map (fun k v => (lookupVar p k).getD v) a q, ha]; rfl
      rw [lookupVar_append_none _ hm,
        lookupVar_filter _ p q (fun v => by simp [ha])]
      exact h

theorem dictUnion_nil_right (a : VarSet) : dictUnion a [] = a := by
  unfold dictUnion
  simp [lookupVar]

/-! ### C1: weak-scaling merge precedence -/

/-- C1 counterexample: with resource `{"n": 1}` and problem-size
`{"n": 2}`, weak scaling produces the problem-size value 2, not the
resource value 1 — the resource-group value does not win on collision. -/
theorem C1_counterexample :
    generate_weak_scaling_params [(Key.str "n", Val.int 1)]
        [(Key.str "n", Val.int 2)] 2 1 = .ok [("n", OutVal.int 2)] ∧
      OutVal.int 2 ≠ OutVal.int 1 := by
  exact ⟨by decide, by decide⟩

/-- C1 amended: weak scaling merges the two groups with the
problem-size-group value winning on key collision, and always passes the
first key of the resource group as the driver. -/
theorem C1_weak_merge (k0 : Key) (v0 : Val) (rest p : VarSet) (q : Key)
    (w : Val) (f n : Int) (h : lookupVar p q = some w) :
    lookupVar (dictUnion ((k0, v0) :: rest) p) q = some w ∧
    generate_weak_scaling_params ((k0, v0) :: rest) p f n =
      scale_experiment_variables (dictUnion ((k0, v0) :: rest) p) f n (some k0) :=
  ⟨lookupVar_dictUnion_right _ _ _ _ h, rfl⟩

theorem C1_weak_merge_witness :
    lookupVar [(Key.str "q", Val.int 5)] (Key.str "q") = some (Val.int 5) ∧
    (lookupVar (dictUnion [(Key.str "r", Val.int 1)] [(Key.str "q", Val.int 5)])
        (Key.str "q") = some (Val.int 5) ∧
      generate_weak_scaling_params [(Key.str "r", Val.int 1)]
          [(Key.str "q", Val.int 5)] 2 3 =
        scale_experiment_variables
          (dictUnion [(Key.str "r", Val.int 1)] [(Key.str "q", Val.int 5)]) 2 3
          (some (Key.str "r"))) :=
  ⟨by decide,
    C1_weak_merge (Key.str "r") (Val.int 1) [] [(Key.str "q", Val.int 5)]
      (Key.str "q") (Val.int 5) 2 3 (by decide)⟩

/-! ### C2: the worked example of the spec -/

/-- C2: for a two-component nodes variable with base `[1, 4]`, a scalar
`x = 10`, driver the nodes variable, factor 2 and 3 experiments, the
planner yields order `[0, 1]` and the sweep yields `[1,2,2]`, `[4,4,8]`
for the node components and `[10,20,40]` for `x`. -/
theorem C2_example :
    configure_scaling_policy
        [(Key.tup ["n0", "n1"], Val.list [1, 4]), (Key.str "x", Val.int 10)]
        (Key.tup ["n0", "n1"]) = .ok [0, 1] ∧
    scale_experiment_variables
        [(Key.tup ["n0", "n1"], Val.list [1, 4]), (Key.str "x", Val.int 10)]
        2 3 (some (Key.tup ["n0", "n1"])) =
      .ok [("n0", OutVal.list [1, 2, 2]), ("n1", OutVal.list [4, 4, 8]),
        ("x", OutVal.list [10, 20, 40])] := by
  exact ⟨by decide, by decide⟩

/-! ### C9: weak scaling with an empty problem-size set vs strong scaling -/

/-- C9 counterexample: on an empty resource set, weak scaling raises
`StopIteration` (`next(iter({}))`) while strong scaling returns the empty
result, so the two differ. -/
theorem C9_counterexample :
    generate_weak_scaling_params [] [] 2 4 = .error .stopIteration ∧
    generate_strong_scaling_params [] 2 4 = .ok [] ∧
    generate_weak_scaling_params [] [] 2 4 ≠
      generate_strong_scaling_params [] 2 4 := by
  refine ⟨rfl, rfl, fun h => ?_⟩
  exact Except.noConfusion h

theorem scaleAux_some_first (k0 : Key) (v0 : Val) (rest : VarSet) (f : Int)
    (it : Nat) :
    scaleAux ((k0, v0) :: rest) f it (some k0) =
      scaleAux ((k0, v0) :: rest) f it none := by
  simp only [scaleAux, resolveDriver, ite_self]

/-- C9 amended: for every non-empty resource set, weak scaling with an
empty problem-size set equals strong scaling on the same resource set
with the same factor and count. -/
theorem C9_weak_strong_equiv (k0 : Key) (v0 : Val) (rest : VarSet)
    (f n : Int) :
    generate_weak_scaling_params ((k0, v0) :: rest) [] f n =
      generate_strong_scaling_params ((k0, v0) :: rest) f n := by
  unfold generate_weak_scaling_params generate_strong_scaling_params
    scale_experiment_variables
  rw [dictUnion_nil_right]
  exact scaleAux_some_first k0 v0 rest f (n - 1).toNat

/-! ### C5: the invalid-driver error -/

theorem validateVars_ne_invalid (l : VarSet) : ∀ nd : Nat,
    validateVars l nd ≠ .error .invalidDriver := by
  induction l with
  | nil => intro nd; simp [validateVars]
  | cons kv rest ih =>
      intro nd
      obtain ⟨k, v⟩ := kv
      cases k with
      | str s =>
          cases v with
          | int m => simpa [validateVars] using ih nd
          | list l => simp [validateVars]
      | tup ks =>
          cases v with
          | int m => simp [validateVars]
          | list vs =>
              simp only [validateVars]
              repeat' split
              all_goals first | exact ih _ | simp

theorem configure_ne_invalid (vars : VarSet) (driver : Key) :
    configure_scaling_policy vars driver ≠ .error .invalidDriver := by
  unfold configure_scaling_policy
  cases h : lookupVar vars driver with
  | none => simp
  | some v =>
      cases v with
      | int m => simp
      | list l => cases l <;> simp

theorem stepParam_ne_invalid (ord : List Nat) (f : Int) (e : Nat)
    (p : List (List Int)) : stepParam ord f e p ≠ .error .invalidDriver := by
  rcases p with _ | ⟨c, _ | ⟨c2, t⟩⟩ <;> simp only [stepParam]
  · simp
  · simp
  · split <;> simp

theorem stepVars_ne_invalid (ord : List Nat) (f : Int) (e : Nat) :
    ∀ st, stepVars ord f e st ≠ .error .invalidDriver := by
  intro st
  induction st with
  | nil => simp [stepVars]
  | cons kv rest ih =>
      obtain ⟨k, p⟩ := kv
      simp only [stepVars]
      intro h
      split at h
      · rename_i er hp
        injection h with h2
        exact stepParam_ne_invalid ord f e p (h2 ▸ hp)
      · split at h
        · rename_i er hr
          injection h with h2
          exact ih (h2 ▸ hr)
        · exact Except.noConfusion h

theorem runSweep_ne_invalid (ord : List Nat) (f : Int) :
    ∀ (iters e : Nat) st, runSweep ord f iters e st ≠ .error .invalidDriver := by
  intro iters
  induction iters with
  | zero => intro e st; simp [runSweep]
  | succ it ih =>
      intro e st
      simp only [runSweep]
      intro h
      split at h
      · rename_i er hs
        injection h with h2
        exact stepVars_ne_invalid ord f e st (h2 ▸ hs)
      · exact ih (e + 1) _ h

theorem unpackTuple_ne_invalid : ∀ (ns : List String) (cols : List (List Int))
    (out : List (String × OutVal)),
    unpackTuple ns cols out ≠ .error .invalidDriver := by
  intro ns
  induction ns with
  | nil => intro cols out; simp [unpackTuple]
  | cons n ns ih =>
      intro cols out
      cases cols with
      | nil => simp [unpackTuple]
      | cons c cs => simpa [unpackTuple] using ih cs _

theorem unpackAll_ne_invalid : ∀ (st : List (Key × List (List Int)))
    (out : List (String × OutVal)),
    unpackAll st out ≠ .error .invalidDriver := by
  intro st
  induction st with
  | nil => intro out; simp [unpackAll]
  | cons kv rest ih =>
      intro out
      obtain ⟨k, cols⟩ := kv
      cases k with
      | tup ns =>
          simp only [unpackAll]
          intro h
          split at h
          · rename_i er hu
            injection h with h2
            exact unpackTuple_ne_invalid ns cols out (h2 ▸ hu)
          · exact ih _ h
      | str s =>
          cases cols with
          | nil => simp [unpackAll]
          | cons c cs => simpa [unpackAll] using ih _

/-- C5 counterexample: the empty string is a supplied driver that is not
a key of the set, yet the generator succeeds — the falsy driver is
silently replaced by the first key instead of failing. -/
theorem C5_counterexample :
    scale_experiment_variables [(Key.str "a", Val.int 1)] 2 1
        (some (Key.str "")) = .ok [("a", OutVal.int 1)] ∧
      lookupVar [(Key.str "a", Val.int 1)] (Key.str "") = none := by
  exact ⟨by decide, by decide⟩

/-- C5 amended: for a non-empty variable set, the generator fails with
the invalid-driver error iff the resolved driver — the supplied driver
when given and truthy (non-empty), otherwise the first key in insertion
order — is not a key of the set. -/
theorem C5_invalid_driver_iff (k0 : Key) (v0 : Val) (rest : VarSet)
    (f n : Int) (d? : Option Key) :
    scale_experiment_variables ((k0, v0) :: rest) f n d? =
        .error .invalidDriver ↔
      lookupVar ((k0, v0) :: rest) (resolveDriver k0 d?) = none := by
  unfold scale_experiment_variables
  simp only [scaleAux]
  cases hl : lookupVar ((k0, v0) :: rest) (resolveDriver k0 d?) with
  | none => simp [hl]
  | some dv =>
      refine iff_of_false ?_ (by simp)
      rw [if_neg (by simp)]
      intro h
      split at h
      · rename_i er hv
        injection h with h2
        exact validateVars_ne_invalid _ _ (h2 ▸ hv)
      · split at h
        · rename_i er hc
          injection h with h2
          exact configure_ne_invalid _ _ (h2 ▸ hc)
        · split at h
          · rename_i er hr
            injection h with h2
            exact runSweep_ne_invalid _ _ _ _ _ (h2 ▸ hr)
          · exact unpackAll_ne_invalid _ _ h

/-! ### C6: the dimension-mismatch error -/

theorem validateVars_err_of_ne (l : VarSet) : ∀ nd : Nat, nd ≠ 0 →
    (∀ kv ∈ l, typedEntry kv = true) →
    (∃ ks vs, (Key.tup ks, Val.list vs) ∈ l ∧ vs.length ≠ nd) →
    validateVars l nd = .error .dimMismatch := by
  induction l with
  | nil =>
      rintro nd _ _ ⟨ks, vs, hmem, _⟩
      exact absurd hmem (List.not_mem_nil _)
  | cons kv rest ih =>
      rintro nd hnd hT ⟨ks, vs, hmem, hlen⟩
      obtain ⟨k, v⟩ := kv
      have hThead : typedEntry (k, v) = true := hT _ (List.mem_cons_self _ _)
      have hTrest : ∀ kv ∈ rest, typedEntry kv = true :=
        fun kv h => hT kv (List.mem_cons_of_mem _ h)
      cases k with
      | str s =>
          cases v with
          | int m =>
              have : (Key.tup ks, Val.list vs) ∈ rest := by
                rcases List.mem_cons.mp hmem with h | h
                · exact absurd h (by simp)
                · exact h
              simpa [validateVars] using ih nd hnd hTrest ⟨ks, vs, this, hlen⟩
          | list l0 => simp [typedEntry] at hThead
      | tup ks0 =>
          cases v with
          | int m => simp [typedEntry] at hThead
          | list vs0 =>
              have hkv : ks0.length = vs0.length := by
                simpa [typedEntry] using hThead
              simp only [validateVars, if_neg hnd]
              rw [if_neg (show ¬ks0.length ≠ vs0.length by simpa using hkv)]
              by_cases hv0 : vs0.length = nd
              · rw [if_neg (show ¬vs0.length ≠ nd by simpa using hv0)]
                have : (Key.tup ks, Val.list vs) ∈ rest := by
                  rcases List.mem_cons.mp hmem with h | h
                  · exfalso
                    have h1 : vs = vs0 := by
                      injection h with h2 h3
                      injection h3
                    exact hlen (h1 ▸ hv0)
                  · exact h
                exact ih nd hnd hTrest ⟨ks, vs, this, hlen⟩
              · rw [if_pos (show vs0.length ≠ nd from hv0)]

theorem validateVars_err_two (l : VarSet) :
    (∀ kv ∈ l, typedEntry kv = true) →
    (∃ ks1 vs1 ks2 vs2, (Key.tup ks1, Val.list vs1) ∈ l ∧
      (Key.tup ks2, Val.list vs2) ∈ l ∧ vs1.length ≠ vs2.length ∧
      vs1 ≠ [] ∧ vs2 ≠ []) →
    validateVars l 0 = .error .dimMismatch := by
  induction l with
  | nil =>
      rintro _ ⟨ks1, vs1, ks2, vs2, hm1, _, _, _, _⟩
      exact absurd hm1 (List.not_mem_nil _)
  | cons kv rest ih =>
      rintro hT ⟨ks1, vs1, ks2, vs2, hm1, hm2, hne, hz1, hz2⟩
      obtain ⟨k, v⟩ := kv
      have hThead : typedEntry (k, v) = true := hT _ (List.mem_cons_self _ _)
      have hTrest : ∀ kv ∈ rest, typedEntry kv = true :=
        fun kv h => hT kv (List.mem_cons_of_mem _ h)
      cases k with
      | str s =>
          cases v with
          | int m =>
              have h1 : (Key.tup ks1, Val.list vs1) ∈ rest := by
                rcases List.mem_cons.mp hm1 with h | h
                · exact absurd h (by simp)
                · exact h
              have h2 : (Key.tup ks2, Val.list vs2) ∈ rest := by
                rcases List.mem_cons.mp hm2 with h | h
                · exact absurd h (by simp)
                · exact h
              simpa [validateVars] using
                ih hTrest ⟨ks1, vs1, ks2, vs2, h1, h2, hne, hz1, hz2⟩
          | list l0 => simp [typedEntry] at hThead
      | tup ks0 =>
          cases v with
          | int m => simp [typedEntry] at hThead
          | list vs0 =>
              have hkv : ks0.length = vs0.length := by
                simpa [typedEntry] using hThead
              simp only [validateVars, if_true]
              rw [if_neg (show ¬ks0.length ≠ vs0.length by simpa using hkv),
                if_neg (show ¬vs0.length ≠ vs0.length by simp)]
              by_cases hz0 : vs0.length = 0
              · have h1 : (Key.tup ks1, Val.list vs1) ∈ rest := by
                  rcases List.mem_cons.mp hm1 with h | h
                  · exfalso
                    have hv : vs1 = vs0 := by
                      injection h with ha hb
                      injection hb
                    exact hz1 (by
                      subst hv
                      exact List.length_eq_zero.mp hz0)
                  · exact h
                have h2 : (Key.tup ks2, Val.list vs2) ∈ rest := by
                  rcases List.mem_cons.mp hm2 with h | h
                  · exfalso
                    have hv : vs2 = vs0 := by
                      injection h with ha hb
                      injection hb
                    exact hz2 (by
                      subst hv
                      exact List.length_eq_zero.mp hz0)
                  · exact h
                rw [hz0]
                exact ih hTrest ⟨ks1, vs1, ks2, vs2, h1, h2, hne, hz1, hz2⟩
              · apply validateVars_err_of_ne rest vs0.length hz0 hTrest
                rcases List.mem_cons.mp hm1 with h | h
                · have hv : vs1 = vs0 := by
                    injection h with ha hb
                    injection hb
                  subst hv
                  have h2 : (Key.tup ks2, Val.list vs2) ∈ rest := by
                    rcases List.mem_cons.mp hm2 with h' | h'
                    · exfalso
                      have hv2 : vs2 = vs1 := by
                        injection h' with ha hb
                        injection hb
                      exact hne (by rw [hv2])
                    · exact h'
                  exact ⟨ks2, vs2, h2, Ne.symm hne⟩
                · rcases List.mem_cons.mp hm2 with h' | h'
                  · have hv : vs2 = vs0 := by
                      injection h' with ha hb
                      injection hb
                    subst hv
                    exact ⟨ks1, vs1, h, hne⟩
                  · by_cases hq : vs1.length = vs0.length
                    · exact ⟨ks2, vs2, h', fun he => hne (hq.trans he.symm)⟩
                    · exact ⟨ks1, vs1, h, hq⟩

/-- C6 counterexample: two tuple-valued entries of different
dimensionalities 0 and 3 (each key length matching its value length) are
accepted — the `n_dims` falsy check treats the leading zero-length entry
as unset — and the sweep succeeds instead of failing with the
dimension-mismatch error. -/
theorem C6_counterexample :
    scale_experiment_variables
        [(Key.tup [], Val.list []), (Key.tup ["a", "b", "c"], Val.list [1, 2, 3])]
        2 1 (some (Key.tup ["a", "b", "c"])) =
      .ok [("a", OutVal.int 1), ("b", OutVal.int 2), ("c", OutVal.int 3)] ∧
    ([] : List Int).length ≠ [(1 : Int), 2, 3].length := by
  exact ⟨by decide, by decide⟩

/-- C6 amended: for a well-typed variable set whose resolved driver is
present, containing two tuple-named, list-valued entries with *non-empty*
value sequences of different lengths, the sweep generator fails with the
dimension-mismatch error. -/
theorem C6_dim_mismatch (k0 : Key) (v0 : Val) (rest : VarSet) (f n : Int)
    (d? : Option Key) (ks1 ks2 : List String) (vs1 vs2 : List Int)
    (hT : ∀ kv ∈ (k0, v0) :: rest, typedEntry kv = true)
    (hd : (lookupVar ((k0, v0) :: rest) (resolveDriver k0 d?)).isSome = true)
    (hm1 : (Key.tup ks1, Val.list vs1) ∈ (k0, v0) :: rest)
    (hm2 : (Key.tup ks2, Val.list vs2) ∈ (k0, v0) :: rest)
    (hne : vs1.length ≠ vs2.length) (hz1 : vs1 ≠ []) (hz2 : vs2 ≠ []) :
    scale_experiment_variables ((k0, v0) :: rest) f n d? =
      .error .dimMismatch := by
  unfold scale_experiment_variables
  simp only [scaleAux]
  obtain ⟨dv, hdv⟩ := Option.isSome_iff_exists.mp hd
  rw [hdv, if_neg (by simp),
    validateVars_err_two _ hT ⟨ks1, vs1, ks2, vs2, hm1, hm2, hne, hz1, hz2⟩]

theorem C6_dim_mismatch_witness :
    (∀ kv ∈ [(Key.tup ["a"], Val.list [1]),
        (Key.tup ["b", "c"], Val.list [2, 3])], typedEntry kv = true) ∧
    (lookupVar [(Key.tup ["a"], Val.list [1]),
        (Key.tup ["b", "c"], Val.list [2, 3])]
      (resolveDriver (Key.tup ["a"]) none)).isSome = true ∧
    scale_experiment_variables
        [(Key.tup ["a"], Val.list [1]), (Key.tup ["b", "c"], Val.list [2, 3])]
        2 4 none = .error .dimMismatch :=
  ⟨by decide, by decide,
    C6_dim_mismatch (Key.tup ["a"]) (Val.list [1])
      [(Key.tup ["b", "c"], Val.list [2, 3])] 2 4 none ["a"] ["b", "c"]
      [1] [2, 3] (by decide) (by decide) (by decide) (by decide) (by decide)
      (by decide) (by decide)⟩

/-! ### C7: totality of the scaling-order planner -/

/-- C7 counterexample: on a driver that is not a key of the set, the
planner raises `KeyError` instead of returning an order. -/
theorem C7_counterexample :
    configure_scaling_policy [(Key.str "a", Val.int 1)] (Key.str "b") =
      .error .keyError := by
  decide

theorem lookupVar_mem {vars : VarSet} {q : Key} {v : Val}
    (h : lookupVar vars q = some v) : ∃ k, (k, v) ∈ vars := by
  induction vars with
  | nil => simp [lookupVar] at h
  | cons kv rest ih =>
      obtain ⟨k1, v1⟩ := kv
      simp only [lookupVar] at h
      by_cases hk : k1 = q
      · rw [if_pos hk] at h
        injection h with h2
        exact ⟨k1, by simp [h2]⟩
      · rw [if_neg hk] at h
        obtain ⟨k, hmem⟩ := ih h
        exact ⟨k, List.mem_cons_of_mem _ hmem⟩

theorem nDims_pos (vars : VarSet)
    (hnz : ∀ kv ∈ vars, valNonempty kv.2 = true) : 1 ≤ nDims vars := by
  induction vars with
  | nil => simp [nDims]
  | cons kv rest ih =>
      obtain ⟨k, v⟩ := kv
      cases v with
      | int m => exact ih fun kv h => hnz kv (List.mem_cons_of_mem _ h)
      | list l =>
          cases l with
          | nil =>
              have := hnz (k, Val.list []) (List.mem_cons_self _ _)
              simp [valNonempty] at this
          | cons x xs => simp [nDims]

/-- C7 amended: on any driver that is a key of a set whose list values
are all non-empty, the planner succeeds and returns a sequence of length
`k = nDims`, with `k ≥ 1`. -/
theorem C7_planner_total (vars : VarSet) (driver : Key)
    (hd : (lookupVar vars driver).isSome = true)
    (hnz : ∀ kv ∈ vars, valNonempty kv.2 = true) :
    ∃ ord, configure_scaling_policy vars driver = .ok ord ∧
      ord.length = nDims vars ∧ 1 ≤ nDims vars := by
  obtain ⟨dv, hdv⟩ := Option.isSome_iff_exists.mp hd
  have hk := nDims_pos vars hnz
  cases dv with
  | int m =>
      refine ⟨(List.range (nDims vars)).map fun i => (0 + i) % nDims vars,
        ?_, by simp, hk⟩
      simp only [configure_scaling_policy, hdv]
  | list l =>
      cases l with
      | nil =>
          obtain ⟨k, hmem⟩ := lookupVar_mem hdv
          have := hnz _ hmem
          simp [valNonempty] at this
      | cons x xs =>
          refine ⟨(List.range (nDims vars)).map
            fun i => (minIndex (x :: xs) + i) % nDims vars, ?_, by simp, hk⟩
          simp only [configure_scaling_policy, hdv]

theorem C7_planner_total_witness :
    (lookupVar [(Key.tup ["a", "b"], Val.list [9, 1])]
        (Key.tup ["a", "b"])).isSome = true ∧
    (∀ kv ∈ [(Key.tup ["a", "b"], Val.list [9, 1])], valNonempty kv.2 = true) ∧
    ∃ ord, configure_scaling_policy [(Key.tup ["a", "b"], Val.list [9, 1])]
        (Key.tup ["a", "b"]) = .ok ord ∧
      ord.length = nDims [(Key.tup ["a", "b"], Val.list [9, 1])] ∧
      1 ≤ nDims [(Key.tup ["a", "b"], Val.list [9, 1])] :=
  ⟨by decide, by decide,
    C7_planner_total [(Key.tup ["a", "b"], Val.list [9, 1])]
      (Key.tup ["a", "b"]) (by decide) (by decide)⟩

/-! ### C3: shape of the scaling order -/

theorem foldl_min_choice : ∀ (xs : List Int) (a : Int),
    xs.foldl min a = a ∨ xs.foldl min a ∈ xs := by
  intro xs
  induction xs with
  | nil => intro a; left; rfl
  | cons y ys ih =>
      intro a
      rcases ih (min a y) with h | h
      · rcases min_choice a y with hm | hm
        · left; rw [List.foldl_cons, h, hm]
        · right; rw [List.foldl_cons, h, hm]; exact List.mem_cons_self _ _
      · right; exact List.mem_cons_of_mem _ h

theorem listMin_mem {l : List Int} (h : l ≠ []) : listMin l ∈ l := by
  cases l with
  | nil => exact absurd rfl h
  | cons x xs =>
      rcases foldl_min_choice xs x with h' | h'
      · rw [listMin, h']; exact List.mem_cons_self _ _
      · rw [listMin]; exact List.mem_cons_of_mem _ h'

theorem minIndex_lt_length {l : List Int} (h : l ≠ []) :
    minIndex l < l.length :=
  List.indexOf_lt_length.mpr (listMin_mem h)

/-- A left-rotation of `0..k-1` is a permutation of `0..k-1`. -/
theorem rotation_perm (k s : Nat) (hs : s < k) :
    ((List.range k).map fun i => (s + i) % k).Perm (List.range k) := by
  have hk : 0 < k := Nat.lt_of_le_of_lt (Nat.zero_le _) hs
  have hnd : ((List.range k).map fun i => (s + i) % k).Nodup := by
    refine (List.nodup_range k).map_on ?_
    intro x hx y hy hxy
    have hx' : x < k := List.mem_range.mp hx
    have hy' : y < k := List.mem_range.mp hy
    have hmod : x ≡ y [MOD k] :=
      Nat.ModEq.add_left_cancel' s (hxy : (s + x) % k = (s + y) % k)
    have := hmod
    unfold Nat.ModEq at this
    rwa [Nat.mod_eq_of_lt hx', Nat.mod_eq_of_lt hy'] at this
  have hsub : ((List.range k).map fun i => (s + i) % k) ⊆ List.range k := by
    intro x hx
    obtain ⟨i, _, rfl⟩ := List.mem_map.mp hx
    exact List.mem_range.mpr (Nat.mod_lt _ hk)
  exact (hnd.subperm hsub).perm_of_length_le (by simp)

theorem rotation_headD (k : Nat) (f : Nat → Nat) (hk : 1 ≤ k) :
    ((List.range k).map f).headD 0 = f 0 := by
  obtain ⟨m, rfl⟩ : ∃ m, k = m + 1 := ⟨k - 1, by omega⟩
  rw [List.range_succ_eq_map]
  rfl

/-- C3 counterexample: with a first tuple entry of dimensionality 1 and a
two-dimensional driver whose minimum sits at index 1, the planner returns
`[0]`, which does not start at the driver's minimum-valued dimension. -/
theorem C3_counterexample :
    configure_scaling_policy
        [(Key.tup ["a"], Val.list [5]), (Key.tup ["b", "c"], Val.list [9, 1])]
        (Key.tup ["b", "c"]) = .ok [0] ∧
      minIndex [9, 1] = 1 ∧ ([0] : List Nat).headD 0 ≠ minIndex [9, 1] := by
  exact ⟨by decide, by decide, by decide⟩

/-- C3 amended: on a variable set whose list values all have the shared
positive dimensionality `k = nDims`, for every driver that is a key, the
planner returns exactly `[(start + i) mod k for i in 0..k-1]` with
`start` the index of the first minimum of the driver's list value (0 for
a scalar driver); this output is a permutation of `0..k-1` starting at
`start`. -/
theorem C3_rotation (vars : VarSet) (driver : Key)
    (hd : (lookupVar vars driver).isSome = true)
    (hdim : ∀ kv ∈ vars, entryDimsOk (nDims vars) kv.2 = true) :
    configure_scaling_policy vars driver =
      .ok ((List.range (nDims vars)).map
        fun i => (driverStart vars driver + i) % nDims vars) ∧
    ((List.range (nDims vars)).map
        fun i => (driverStart vars driver + i) % nDims vars).Perm
      (List.range (nDims vars)) ∧
    ((List.range (nDims vars)).map
        fun i => (driverStart vars driver + i) % nDims vars).headD 0 =
      driverStart vars driver := by
  obtain ⟨dv, hdv⟩ := Option.isSome_iff_exists.mp hd
  have hnz : ∀ kv ∈ vars, valNonempty kv.2 = true := by
    intro kv h
    have hdk := hdim kv h
    cases hv : kv.2 with
    | int m => simp [valNonempty]
    | list l =>
        cases l with
        | nil => rw [hv] at hdk; simp [entryDimsOk] at hdk
        | cons x xs => simp [valNonempty]
  have hk : 1 ≤ nDims vars := nDims_pos vars hnz
  have hstart : driverStart vars driver < nDims vars := by
    unfold driverStart
    rw [hdv]
    cases dv with
    | int m => exact hk
    | list l =>
        obtain ⟨k', hmem⟩ := lookupVar_mem hdv
        have hdk := hdim _ hmem
        simp only [entryDimsOk, Bool.and_eq_true, beq_iff_eq,
          Bool.not_eq_eq_eq_not, Bool.not_true, List.isEmpty_eq_false] at hdk
        obtain ⟨hlen, hne⟩ := hdk
        have hne' : l ≠ [] := by
          intro hnil
          rw [hnil] at hne
          simp [List.isEmpty] at hne
        exact hlen ▸ minIndex_lt_length hne'
  refine ⟨?_, rotation_perm _ _ hstart, ?_⟩
  · cases dv with
    | int m =>
        have hds : driverStart vars driver = 0 := by
          unfold driverStart; rw [hdv]
        rw [hds]
        simp only [configure_scaling_policy, hdv, Nat.zero_add]
    | list l =>
        cases l with
        | nil =>
            obtain ⟨k', hmem⟩ := lookupVar_mem hdv
            have := hnz _ hmem
            simp [valNonempty] at this
        | cons x xs =>
            have hds : driverStart vars driver = minIndex (x :: xs) := by
              unfold driverStart; rw [hdv]
            rw [hds]
            simp only [configure_scaling_policy, hdv]
  · rw [rotation_headD _ _ hk, Nat.add_zero, Nat.mod_eq_of_lt hstart]

theorem C3_rotation_witness :
    (lookupVar [(Key.tup ["a", "b"], Val.list [9, 1])]
        (Key.tup ["a", "b"])).isSome = true ∧
    (∀ kv ∈ [(Key.tup ["a", "b"], Val.list [9, 1])],
      entryDimsOk (nDims [(Key.tup ["a", "b"], Val.list [9, 1])]) kv.2 = true) ∧
    (configure_scaling_policy [(Key.tup ["a", "b"], Val.list [9, 1])]
        (Key.tup ["a", "b"]) =
      .ok ((List.range (nDims [(Key.tup ["a", "b"], Val.list [9, 1])])).map
        fun i => (driverStart [(Key.tup ["a", "b"], Val.list [9, 1])]
            (Key.tup ["a", "b"]) + i) %
          nDims [(Key.tup ["a", "b"], Val.list [9, 1])]) ∧
    ((List.range (nDims [(Key.tup ["a", "b"], Val.list [9, 1])])).map
        fun i => (driverStart [(Key.tup ["a", "b"], Val.list [9, 1])]
            (Key.tup ["a", "b"]) + i) %
          nDims [(Key.tup ["a", "b"], Val.list [9, 1])]).Perm
      (List.range (nDims [(Key.tup ["a", "b"], Val.list [9, 1])])) ∧
    ((List.range (nDims [(Key.tup ["a", "b"], Val.list [9, 1])])).map
        fun i => (driverStart [(Key.tup ["a", "b"], Val.list [9, 1])]
            (Key.tup ["a", "b"]) + i) %
          nDims [(Key.tup ["a", "b"], Val.list [9, 1])]).headD 0 =
      driverStart [(Key.tup ["a", "b"], Val.list [9, 1])]
        (Key.tup ["a", "b"])) :=
  ⟨by decide, by decide,
    C3_rotation [(Key.tup ["a", "b"], Val.list [9, 1])] (Key.tup ["a", "b"])
      (by decide) (by decide)⟩

/-! ### C8 and C10: single-experiment sweeps return the base values -/

theorem validateVars_ok_of_uniform (l : VarSet) (L : Nat) : ∀ nd : Nat,
    (∀ kv ∈ l, typedEntry kv = true) →
    (∀ kv ∈ l, lenIs L kv.2 = true) →
    (nd = 0 ∨ nd = L) →
    ∃ nd', validateVars l nd = .ok nd' := by
  induction l with
  | nil => intro nd _ _ _; exact ⟨nd, rfl⟩
  | cons kv rest ih =>
      intro nd hT hU hnd
      obtain ⟨k, v⟩ := kv
      have hThead : typedEntry (k, v) = true := hT _ (List.mem_cons_self _ _)
      have hTrest : ∀ kv ∈ rest, typedEntry kv = true :=
        fun kv h => hT kv (List.mem_cons_of_mem _ h)
      have hUrest : ∀ kv ∈ rest, lenIs L kv.2 = true :=
        fun kv h => hU kv (List.mem_cons_of_mem _ h)
      cases k with
      | str s =>
          cases v with
          | int m => simpa [validateVars] using ih nd hTrest hUrest hnd
          | list l0 => simp [typedEntry] at hThead
      | tup ks =>
          cases v with
          | int m => simp [typedEntry] at hThead
          | list vs =>
              have hkv : ks.length = vs.length := by
                simpa [typedEntry] using hThead
              have hL : vs.length = L := by
                simpa [lenIs] using hU _ (List.mem_cons_self _ _)
              have hnd' : (if nd = 0 then vs.length else nd) = L := by
                rcases hnd with h | h <;> simp [h, hL]
              simp only [validateVars, hnd']
              rw [if_neg (show ¬ks.length ≠ vs.length by simpa using hkv),
                if_neg (show ¬vs.length ≠ L by simpa using hL)]
              exact ih L hTrest hUrest (Or.inr rfl)

theorem configure_ok_of_driverOk {vars : VarSet} {drv : Key}
    (h : driverOk vars drv = true) :
    ∃ ord, configure_scaling_policy vars drv = .ok ord := by
  unfold driverOk at h
  cases hl : lookupVar vars drv with
  | none => rw [hl] at h; simp at h
  | some dv =>
      rw [hl] at h
      cases dv with
      | int m =>
          refine ⟨(List.range (nDims vars)).map fun i => (0 + i) % nDims vars, ?_⟩
          simp only [configure_scaling_policy, hl]
      | list l =>
          cases l with
          | nil => simp at h
          | cons x xs =>
              refine ⟨(List.range (nDims vars)).map
                fun i => (minIndex (x :: xs) + i) % nDims vars, ?_⟩
              simp only [configure_scaling_policy, hl]

theorem lookupStr_append (a b : List (String × OutVal)) (s : String) :
    lookupStr (a ++ b) s =
      match lookupStr a s with
      | some v => some v
      | none => lookupStr b s := by
  induction a with
  | nil => rfl
  | cons kv rest ih =>
      obtain ⟨k1, v1⟩ := kv
      simp only [lookupStr, List.cons_append]
      by_cases hk : k1 = s
      · simp [hk]
      · simp only [hk, if_false]
        exact ih

theorem upsert_of_fresh {acc : List (String × OutVal)} {s : String}
    (h : lookupStr acc s = none) (v : OutVal) :
    upsert acc s v = acc ++ [(s, v)] := by
  induction acc with
  | nil => rfl
  | cons kv rest ih =>
      obtain ⟨k1, v1⟩ := kv
      simp only [lookupStr] at h
      by_cases hk : k1 = s
      · simp [hk] at h
      · simp only [upsert, hk, if_false, List.cons_append, List.cons.injEq,
          true_and]
        exact ih (by simpa [hk] using h)

theorem lookupStr_eq_none_of_fresh {out : List (String × OutVal)} {s : String}
    (h : ∀ pr ∈ out, pr.1 ≠ s) : lookupStr out s = none := by
  induction out with
  | nil => rfl
  | cons kv rest ih =>
      obtain ⟨k1, v1⟩ := kv
      have hk : k1 ≠ s := h _ (List.mem_cons_self _ _)
      simp only [lookupStr, hk, if_false]
      exact ih fun pr hpr => h pr (List.mem_cons_of_mem _ hpr)

theorem unpackTuple_zip : ∀ (ks : List String) (cols : List (List Int))
    (acc : List (String × OutVal)), ks.Nodup →
    (∀ s ∈ ks, lookupStr acc s = none) → ks.length ≤ cols.length →
    unpackTuple ks cols acc =
      .ok (acc ++ List.zipWith (fun s c => (s, reduceCol c)) ks cols) := by
  intro ks
  induction ks with
  | nil => intro cols acc _ _ _; simp [unpackTuple]
  | cons s ss ih =>
      intro cols acc hnd hfresh hlen
      cases cols with
      | nil => simp at hlen
      | cons c cs =>
          have hs : lookupStr acc s = none := hfresh _ (List.mem_cons_self _ _)
          have hfresh' : ∀ t ∈ ss, lookupStr (acc ++ [(s, reduceCol c)]) t = none := by
            intro t ht
            rw [lookupStr_append]
            have hta : lookupStr acc t = none :=
              hfresh _ (List.mem_cons_of_mem _ ht)
            have hst : s ≠ t := by
              intro hst
              exact (List.nodup_cons.mp hnd).1 (hst ▸ ht)
            simp [hta, lookupStr, hst]
          simp only [unpackTuple, upsert_of_fresh hs]
          rw [ih cs (acc ++ [(s, reduceCol c)]) hnd.of_cons hfresh'
            (by simpa using hlen)]
          simp [List.zipWith]

theorem fst_mem_of_mem_zipWith : ∀ {ks : List String} {vs : List Int}
    {pr : String × OutVal},
    pr ∈ List.zipWith (fun s v => (s, OutVal.int v)) ks vs → pr.1 ∈ ks := by
  intro ks
  induction ks with
  | nil => intro vs pr h; simp at h
  | cons s ss ih =>
      intro vs pr h
      cases vs with
      | nil => simp at h
      | cons v vv =>
          simp only [List.zipWith] at h
          rcases List.mem_cons.mp h with h | h
          · subst h; exact List.mem_cons_self _ _
          · exact List.mem_cons_of_mem _ (ih h)

theorem unpackAll_base : ∀ (vars : VarSet) (acc : List (String × OutVal)),
    (∀ kv ∈ vars, typedEntry kv = true) →
    (namesOf vars).Nodup →
    (∀ s ∈ namesOf vars, lookupStr acc s = none) →
    unpackAll (vars.map fun kv => (kv.1, initCols kv.2)) acc =
      .ok (acc ++ baseUnpack vars) := by
  intro vars
  induction vars with
  | nil => intro acc _ _ _; simp [unpackAll, baseUnpack]
  | cons kv rest ih =>
      intro acc hT hN hF
      obtain ⟨k, v⟩ := kv
      have hThead := hT _ (List.mem_cons_self _ _)
      have hTrest : ∀ kv ∈ rest, typedEntry kv = true :=
        fun kv h => hT kv (List.mem_cons_of_mem _ h)
      cases k with
      | str s =>
          cases v with
          | list l0 => simp [typedEntry] at hThead
          | int m =>
              have hN' : (s :: namesOf rest).Nodup := hN
              obtain ⟨hsn, hNr⟩ := List.nodup_cons.mp hN'
              have hFs : lookupStr acc s = none :=
                hF s (List.mem_cons_self _ _)
              have hfresh' : ∀ t ∈ namesOf rest,
                  lookupStr (acc ++ [(s, OutVal.int m)]) t = none := by
                intro t ht
                rw [lookupStr_append]
                have hta : lookupStr acc t = none :=
                  hF t (List.mem_cons_of_mem _ ht)
                have hst : s ≠ t := fun hst => hsn (hst ▸ ht)
                simp [hta, lookupStr, hst]
              have hred : reduceCol [m] = OutVal.int m := by simp [reduceCol]
              have hic : initCols (Val.int m) = [[m]] := rfl
              simp only [List.map_cons, hic, unpackAll, hred,
                upsert_of_fresh hFs]
              rw [ih (acc ++ [(s, OutVal.int m)]) hTrest hNr hfresh']
              simp [baseUnpack]
      | tup ks =>
          cases v with
          | int m => simp [typedEntry] at hThead
          | list vs =>
              have hkv : ks.length = vs.length := by
                simpa [typedEntry] using hThead
              have hN' : (ks ++ namesOf rest).Nodup := hN
              obtain ⟨hks, hNr, hdisj⟩ := List.nodup_append.mp hN'
              have hFks : ∀ t ∈ ks, lookupStr acc t = none :=
                fun t ht => hF t (List.mem_append_left _ ht)
              have hfun : (fun (s : String) (v : Int) => (s, reduceCol [v])) =
                  fun s v => (s, OutVal.int v) := by
                funext s v
                simp [reduceCol]
              have hup : unpackTuple ks (vs.map fun v => [v]) acc =
                  .ok (acc ++ List.zipWith (fun s v => (s, OutVal.int v)) ks vs) := by
                rw [unpackTuple_zip ks (vs.map fun v => [v]) acc hks hFks
                  (by simp [hkv]), List.zipWith_map_right, hfun]
              have hfresh' : ∀ t ∈ namesOf rest,
                  lookupStr (acc ++ List.zipWith
                    (fun s v => (s, OutVal.int v)) ks vs) t = none := by
                intro t ht
                rw [lookupStr_append]
                have hta : lookupStr acc t = none :=
                  hF t (List.mem_append_right _ ht)
                have hzf : lookupStr
                    (List.zipWith (fun s v => (s, OutVal.int v)) ks vs) t = none := by
                  apply lookupStr_eq_none_of_fresh
                  intro pr hpr
                  have hprk : pr.1 ∈ ks := fst_mem_of_mem_zipWith hpr
                  intro h1
                  exact hdisj hprk (h1 ▸ ht)
                simp [hta, hzf]
              have hic : initCols (Val.list vs) = vs.map fun v => [v] := rfl
              simp only [List.map_cons, hic, unpackAll, hup]
              rw [ih _ hTrest hNr hfresh']
              simp [baseUnpack, List.append_assoc]

theorem scaleAux_zero (k0 : Key) (v0 : Val) (rest : VarSet) (f : Int)
    (d? : Option Key)
    (hT : ∀ kv ∈ (k0, v0) :: rest, typedEntry kv = true)
    (L : Nat) (hU : ∀ kv ∈ (k0, v0) :: rest, lenIs L kv.2 = true)
    (hN : (namesOf ((k0, v0) :: rest)).Nodup)
    (hdrv : driverOk ((k0, v0) :: rest) (resolveDriver k0 d?) = true) :
    scaleAux ((k0, v0) :: rest) f 0 d? = .ok (baseUnpack ((k0, v0) :: rest)) := by
  simp only [scaleAux]
  have hl : ∃ dv, lookupVar ((k0, v0) :: rest) (resolveDriver k0 d?) = some dv := by
    unfold driverOk at hdrv
    cases hl : lookupVar ((k0, v0) :: rest) (resolveDriver k0 d?) with
    | none => rw [hl] at hdrv; simp at hdrv
    | some dv => exact ⟨dv, rfl⟩
  obtain ⟨dv, hdv⟩ := hl
  rw [hdv, if_neg (by simp)]
  obtain ⟨nd', hval⟩ :=
    validateVars_ok_of_uniform ((k0, v0) :: rest) L 0 hT hU (Or.inl rfl)
  obtain ⟨ord, hord⟩ := configure_ok_of_driverOk hdrv
  rw [hval, hord]
  simp only [runSweep]
  exact unpackAll_base ((k0, v0) :: rest) [] hT hN (fun s _ => rfl)

/-- C8: with `count == 1`, a valid sweep returns every component reduced
to its base integer, for every factor. -/
theorem C8_count_one (k0 : Key) (v0 : Val) (rest : VarSet) (f : Int)
    (d? : Option Key)
    (hT : ∀ kv ∈ (k0, v0) :: rest, typedEntry kv = true)
    (L : Nat) (hU : ∀ kv ∈ (k0, v0) :: rest, lenIs L kv.2 = true)
    (hN : (namesOf ((k0, v0) :: rest)).Nodup)
    (hdrv : driverOk ((k0, v0) :: rest) (resolveDriver k0 d?) = true) :
    scale_experiment_variables ((k0, v0) :: rest) f 1 d? =
      .ok (baseUnpack ((k0, v0) :: rest)) :=
  scaleAux_zero k0 v0 rest f d? hT L hU hN hdrv

theorem C8_count_one_witness :
    (∀ kv ∈ [(Key.tup ["a", "b"], Val.list [4, 1]), (Key.str "x", Val.int 10)],
      typedEntry kv = true) ∧
    (∀ kv ∈ [(Key.tup ["a", "b"], Val.list [4, 1]), (Key.str "x", Val.int 10)],
      lenIs 2 kv.2 = true) ∧
    (namesOf [(Key.tup ["a", "b"], Val.list [4, 1]),
      (Key.str "x", Val.int 10)]).Nodup ∧
    driverOk [(Key.tup ["a", "b"], Val.list [4, 1]), (Key.str "x", Val.int 10)]
      (resolveDriver (Key.tup ["a", "b"]) none) = true ∧
    scale_experiment_variables
        [(Key.tup ["a", "b"], Val.list [4, 1]), (Key.str "x", Val.int 10)]
        7 1 none =
      .ok (baseUnpack [(Key.tup ["a", "b"], Val.list [4, 1]),
        (Key.str "x", Val.int 10)]) :=
  ⟨by decide, by decide, by decide, by decide,
    C8_count_one (Key.tup ["a", "b"]) (Val.list [4, 1])
      [(Key.str "x", Val.int 10)] 7 none (by decide) 2 (by decide) (by decide)
      (by decide)⟩

/-- C10: for every count at most 0, the experiment loop runs zero times
and a valid sweep behaves exactly as with `count == 1`: the base values,
no error. -/
theorem C10_nonpositive_count (k0 : Key) (v0 : Val) (rest : VarSet)
    (f count : Int) (d? : Option Key) (hc : count ≤ 0)
    (hT : ∀ kv ∈ (k0, v0) :: rest, typedEntry kv = true)
    (L : Nat) (hU : ∀ kv ∈ (k0, v0) :: rest, lenIs L kv.2 = true)
    (hN : (namesOf ((k0, v0) :: rest)).Nodup)
    (hdrv : driverOk ((k0, v0) :: rest) (resolveDriver k0 d?) = true) :
    scale_experiment_variables ((k0, v0) :: rest) f count d? =
      scale_experiment_variables ((k0, v0) :: rest) f 1 d? ∧
    scale_experiment_variables ((k0, v0) :: rest) f count d? =
      .ok (baseUnpack ((k0, v0) :: rest)) := by
  have h0 : (count - 1).toNat = 0 := Int.toNat_of_nonpos (by omega)
  have hz := scaleAux_zero k0 v0 rest f d? hT L hU hN hdrv
  constructor
  · unfold scale_experiment_variables
    rw [h0]
    rfl
  · unfold scale_experiment_variables
    rw [h0]
    exact hz

theorem C10_nonpositive_count_witness :
    ((0 : Int) ≤ 0) ∧
    (∀ kv ∈ [(Key.tup ["a", "b"], Val.list [4, 1]), (Key.str "x", Val.int 10)],
      typedEntry kv = true) ∧
    (∀ kv ∈ [(Key.tup ["a", "b"], Val.list [4, 1]), (Key.str "x", Val.int 10)],
      lenIs 2 kv.2 = true) ∧
    (namesOf [(Key.tup ["a", "b"], Val.list [4, 1]),
      (Key.str "x", Val.int 10)]).Nodup ∧
    driverOk [(Key.tup ["a", "b"], Val.list [4, 1]), (Key.str "x", Val.int 10)]
      (resolveDriver (Key.tup ["a", "b"]) none) = true ∧
    (scale_experiment_variables
        [(Key.tup ["a", "b"], Val.list [4, 1]), (Key.str "x", Val.int 10)]
        3 0 none =
      scale_experiment_variables
        [(Key.tup ["a", "b"], Val.list [4, 1]), (Key.str "x", Val.int 10)]
        3 1 none ∧
    scale_experiment_variables
        [(Key.tup ["a", "b"], Val.list [4, 1]), (Key.str "x", Val.int 10)]
        3 0 none =
      .ok (baseUnpack [(Key.tup ["a", "b"], Val.list [4, 1]),
        (Key.str "x", Val.int 10)])) :=
  ⟨by decide, by decide, by decide, by decide, by decide,
    C10_nonpositive_count (Key.tup ["a", "b"]) (Val.list [4, 1])
      [(Key.str "x", Val.int 10)] 3 0 none (by decide) (by decide) 2
      (by decide) (by decide) (by decide)⟩

/-! ### C4: round-robin fairness and the product invariant -/

theorem appendScaled_length (f : Int) (t : Nat) :
    ∀ (cols : List (List Int)) (i0 : Nat),
    (appendScaled f t i0 cols).length = cols.length := by
  intro cols
  induction cols with
  | nil => intro i0; rfl
  | cons c cs ih => intro i0; simp [appendScaled, ih]

theorem lastD_append_singleton (l : List Int) (x : Int) :
    lastD (l ++ [x]) = x := by
  simp [lastD]

theorem appendScaled_getD (f : Int) (t : Nat) :
    ∀ (cols : List (List Int)) (i0 j : Nat), j < cols.length →
    (appendScaled f t i0 cols).getD j [] =
      (cols.getD j []) ++
        [if i0 + j = t then lastD (cols.getD j []) * f
          else lastD (cols.getD j [])] := by
  intro cols
  induction cols with
  | nil => intro i0 j hj; simp at hj
  | cons c cs ih =>
      intro i0 j hj
      cases j with
      | zero => simp [appendScaled]
      | succ j' =>
          have hj' : j' < cs.length := by simpa using hj
          have h1 : i0 + 1 + j' = i0 + (j' + 1) := by omega
          simpa [appendScaled, h1] using ih (i0 + 1) j' hj'

theorem stepParam_eq_append (ord : List Nat) (f : Int) (e : Nat)
    (param : List (List Int)) (hord : ord ≠ [])
    (h1 : param.length = 1 → ord.getD (e % ord.length) 0 = 0) :
    stepParam ord f e param =
      .ok (appendScaled f (ord.getD (e % ord.length) 0) 0 param) := by
  rcases param with _ | ⟨c, _ | ⟨c2, t⟩⟩
  · simp [stepParam, appendScaled]
  · have h0 : ord.getD (e % ord.length) 0 = 0 := h1 (by simp)
    rw [h0]
    simp [stepParam, appendScaled]
  · simp only [stepParam]
    rw [if_neg (by simpa using hord)]

theorem stepVars_single (key : Key) (ord : List Nat) (f : Int) (e : Nat)
    (cols : List (List Int)) (hord : ord ≠ [])
    (h1 : cols.length = 1 → ord.getD (e % ord.length) 0 = 0) :
    stepVars ord f e [(key, cols)] =
      .ok [(key, appendScaled f (ord.getD (e % ord.length) 0) 0 cols)] := by
  simp only [stepVars, stepParam_eq_append ord f e cols hord h1]

theorem runSweep_single (key : Key) (ord : List Nat) (f : Int)
    (hord : ord ≠ [])
    (hsing : ord.length = 1 → ∀ e, ord.getD (e % ord.length) 0 = 0) :
    ∀ (m e : Nat) (cols : List (List Int)), cols.length = ord.length →
    runSweep ord f m e [(key, cols)] =
      .ok [(key, iterCols ord f m e cols)] := by
  intro m
  induction m with
  | zero => intro e cols _; simp [runSweep, iterCols]
  | succ m' ih =>
      intro e cols hlen
      have h1 : cols.length = 1 → ord.getD (e % ord.length) 0 = 0 :=
        fun h => hsing (hlen ▸ h) e
      simp only [runSweep, stepVars_single key ord f e cols hord h1]
      rw [ih (e + 1) _ (by rw [appendScaled_length]; exact hlen)]
      simp [iterCols]

theorem iterCols_length (ord : List Nat) (f : Int) :
    ∀ (m e : Nat) (cols : List (List Int)),
    (iterCols ord f m e cols).length = cols.length := by
  intro m
  induction m with
  | zero => intro e cols; rfl
  | succ m' ih =>
      intro e cols
      simp only [iterCols]
      rw [ih, appendScaled_length]

theorem iterCols_col_length (ord : List Nat) (f : Int) :
    ∀ (m e j : Nat) (cols : List (List Int)), j < cols.length →
    ((iterCols ord f m e cols).getD j []).length =
      (cols.getD j []).length + m := by
  intro m
  induction m with
  | zero => intro e j cols _; rfl
  | succ m' ih =>
      intro e j cols hj
      simp only [iterCols]
      rw [ih _ _ _ (by rw [appendScaled_length]; exact hj),
        appendScaled_getD _ _ _ _ _ hj]
      simp
      omega

theorem iterCols_lastD (ord : List Nat) (f : Int) :
    ∀ (m e j : Nat) (cols : List (List Int)), j < cols.length →
    lastD ((iterCols ord f m e cols).getD j []) =
      lastD (cols.getD j []) * f ^ cntFrom ord m e j := by
  intro m
  induction m with
  | zero => intro e j cols _; simp [iterCols, cntFrom]
  | succ m' ih =>
      intro e j cols hj
      simp only [iterCols]
      rw [ih _ _ _ (by rw [appendScaled_length]; exact hj),
        appendScaled_getD _ _ _ _ _ hj, lastD_append_singleton]
      simp only [cntFrom]
      by_cases ht : ord.getD (e % ord.length) 0 = j
      · rw [if_pos (show 0 + j = ord.getD (e % ord.length) 0 by omega),
          if_pos ht, pow_add, pow_one]
        ring
      · rw [if_neg (show ¬0 + j = ord.getD (e % ord.length) 0 by omega),
          if_neg ht, Nat.zero_add]

theorem map_lastD_appendScaled_of_lt (f : Int) (t : Nat) :
    ∀ (cols : List (List Int)) (i0 : Nat), t < i0 →
    (appendScaled f t i0 cols).map lastD = cols.map lastD := by
  intro cols
  induction cols with
  | nil => intro i0 _; rfl
  | cons c cs ih =>
      intro i0 hi
      simp only [appendScaled, List.map_cons]
      rw [if_neg (by omega), lastD_append_singleton, ih (i0 + 1) (by omega)]

theorem prod_map_lastD_appendScaled (f : Int) (t : Nat) :
    ∀ (cols : List (List Int)) (i0 : Nat), i0 ≤ t → t < i0 + cols.length →
    ((appendScaled f t i0 cols).map lastD).prod =
      f * (cols.map lastD).prod := by
  intro cols
  induction cols with
  | nil => intro i0 h1 h2; simp at h2; omega
  | cons c cs ih =>
      intro i0 h1 h2
      simp only [appendScaled, List.map_cons, List.prod_cons]
      by_cases hit : i0 = t
      · rw [if_pos hit, lastD_append_singleton,
          map_lastD_appendScaled_of_lt f t cs (i0 + 1) (by omega)]
        ring
      · rw [if_neg hit, lastD_append_singleton,
          ih (i0 + 1) (by omega) (by simp at h2; omega)]
        ring

theorem iterCols_prod (ord : List Nat) (f : Int) :
    ∀ (m e : Nat) (cols : List (List Int)),
    (∀ e', ord.getD (e' % ord.length) 0 < cols.length) →
    ((iterCols ord f m e cols).map lastD).prod =
      (cols.map lastD).prod * f ^ m := by
  intro m
  induction m with
  | zero => intro e cols _; simp [iterCols]
  | succ m' ih =>
      intro e cols ht
      simp only [iterCols]
      rw [ih (e + 1) _ (fun e' => by rw [appendScaled_length]; exact ht e'),
        prod_map_lastD_appendScaled f _ cols 0 (Nat.zero_le _)
          (by simpa using ht e), pow_succ]
      ring

theorem cntMod_eq_countP (k r : Nat) : ∀ (m e : Nat),
    cntMod k r m e = (List.range m).countP fun a => (e + a) % k == r := by
  intro m
  induction m with
  | zero => intro e; simp [cntMod]
  | succ m' ih =>
      intro e
      simp only [cntMod]
      rw [List.range_succ_eq_map, List.countP_cons, List.countP_map]
      have hc : ((fun a => (e + a) % k == r) ∘ Nat.succ) =
          fun a => ((e + 1) + a) % k == r := by
        funext a
        have h : e + (a + 1) = (e + 1) + a := by omega
        simp only [Function.comp, Nat.succ_eq_add_one, h]
      rw [hc, ← ih (e + 1)]
      simp only [Nat.add_zero, beq_iff_eq]
      omega

theorem countP_range_mod (k r : Nat) (hk : 0 < k) (hr : r < k) : ∀ n : Nat,
    ((List.range n).countP fun a => a % k == r) =
      n / k + (if r < n % k then 1 else 0) := by
  intro n
  induction n with
  | zero => simp
  | succ n ih =>
      rw [List.range_succ, List.countP_append, ih]
      simp only [List.countP_cons, List.countP_nil, beq_iff_eq]
      have hqb : k * (n / k) + n % k = n := Nat.div_add_mod n k
      have hb : n % k < k := Nat.mod_lt _ hk
      by_cases hbk : n % k + 1 = k
      · have hmul : k * (n / k + 1) = k * (n / k) + k := by ring
        have hn1 : n + 1 = k * (n / k + 1) := by omega
        have h1 : (n + 1) / k = n / k + 1 := by
          rw [hn1]
          exact Nat.mul_div_cancel_left _ hk
        have h2 : (n + 1) % k = 0 := by
          rw [hn1]
          exact Nat.mul_mod_right _ _
        split_ifs <;> omega
      · have hbk' : n % k + 1 < k := by omega
        have hn1 : n + 1 = (n % k + 1) + k * (n / k) := by omega
        have h1 : (n + 1) / k = n / k := by
          rw [hn1, Nat.add_mul_div_left _ _ hk, Nat.div_eq_of_lt hbk',
            Nat.zero_add]
        have h2 : (n + 1) % k = n % k + 1 := by
          rw [hn1, Nat.add_mul_mod_self_left]
          exact Nat.mod_eq_of_lt hbk'
        split_ifs <;> omega

theorem ceil_div_of_not_dvd (k n : Nat) (hk : 0 < k) (hne : n % k ≠ 0) :
    (n + k - 1) / k = n / k + 1 := by
  have hqb : k * (n / k) + n % k = n := Nat.div_add_mod n k
  have hb : n % k < k := Nat.mod_lt _ hk
  have hmul : k * (n / k + 1) = k * (n / k) + k := by ring
  have hsplit : n + k - 1 = (n % k - 1) + k * (n / k + 1) := by omega
  rw [hsplit, Nat.add_mul_div_left _ _ hk, Nat.div_eq_of_lt (by omega)]
  omega

theorem cntMod_floor_or_ceil (k r n : Nat) (hk : 0 < k) (hr : r < k) :
    cntMod k r n 0 = n / k ∨ cntMod k r n 0 = (n + k - 1) / k := by
  have hfun : (fun a => (0 + a) % k == r) = fun a => a % k == r := by
    funext a
    rw [Nat.zero_add]
  rw [cntMod_eq_countP k r n 0, hfun, countP_range_mod k r hk hr n]
  by_cases hlt : r < n % k
  · right
    rw [if_pos hlt, ceil_div_of_not_dvd k n hk (by omega)]
  · left
    rw [if_neg hlt]
    omega

theorem rot_getD (k s r : Nat) (hr : r < k) :
    (((List.range k).map fun i => (s + i) % k).getD r 0) = (s + r) % k := by
  rw [List.getD_eq_getD_get?, List.get?_map, List.get?_range hr]
  rfl

theorem rot_mod_eq_iff (k s j t : Nat) (hs : s < k) (hj : j < k) (ht : t < k) :
    ((s + t) % k = j) ↔ t = (k + j - s) % k := by
  have hk : 0 < k := by omega
  have hrj : (k + j - s) % k < k := Nat.mod_lt _ hk
  have hcomp : (s + (k + j - s) % k) % k = j := by
    rw [Nat.add_mod_mod]
    have h1 : s + (k + j - s) = k + j := by omega
    rw [h1, Nat.add_mod_left]
    exact Nat.mod_eq_of_lt hj
  constructor
  · intro h
    have h2 : (s + t) % k = (s + (k + j - s) % k) % k := by rw [h, hcomp]
    have h3 : t ≡ (k + j - s) % k [MOD k] := Nat.ModEq.add_left_cancel' s h2
    have h4 := h3
    unfold Nat.ModEq at h4
    rwa [Nat.mod_eq_of_lt ht, Nat.mod_eq_of_lt hrj] at h4
  · intro h
    rw [h]
    exact hcomp

theorem cntFrom_rot (k s j : Nat) (hs : s < k) (hj : j < k) :
    ∀ (m e : Nat),
    cntFrom ((List.range k).map fun i => (s + i) % k) m e j =
      cntMod k ((k + j - s) % k) m e := by
  have hk : 0 < k := by omega
  have hlen : ((List.range k).map fun i => (s + i) % k).length = k := by simp
  intro m
  induction m with
  | zero => intro e; rfl
  | succ m' ih =>
      intro e
      simp only [cntFrom, cntMod, hlen]
      rw [rot_getD k s (e % k) (Nat.mod_lt _ hk),
        if_congr (rot_mod_eq_iff k s j (e % k) hs hj (Nat.mod_lt _ hk)) rfl rfl,
        ih (e + 1)]

theorem dimScaleCount_rot (k s j n : Nat) (hs : s < k) (hj : j < k) :
    dimScaleCount ((List.range k).map fun i => (s + i) % k) n j = n / k ∨
    dimScaleCount ((List.range k).map fun i => (s + i) % k) n j =
      (n + k - 1) / k := by
  unfold dimScaleCount
  rw [cntFrom_rot k s j hs hj n 0]
  exact cntMod_floor_or_ceil k _ n (by omega) (Nat.mod_lt _ (by omega))

theorem getD_map_singleton (base : List Int) (j : Nat) (hj : j < base.length) :
    ((base.map fun v => [v]).getD j []) = [base.getD j 0] := by
  rw [List.getD_eq_getD_get?, List.get?_map, List.getD_eq_getD_get?]
  cases hg : base.get? j with
  | none =>
      rw [List.get?_eq_none] at hg
      omega
  | some v => rfl

theorem zipWith_pair_congr (g h : List Int → OutVal) :
    ∀ (as : List String) (bs : List (List Int)), (∀ b ∈ bs, g b = h b) →
    List.zipWith (fun a b => (a, g b)) as bs =
      List.zipWith (fun a b => (a, h b)) as bs := by
  intro as
  induction as with
  | nil => intro bs _; simp
  | cons a as ih =>
      intro bs hgh
      cases bs with
      | nil => simp
      | cons b bs =>
          simp only [List.zipWith, List.cons.injEq]
          exact ⟨by rw [hgh b (List.mem_cons_self _ _)],
            ih bs fun b hb => hgh b (List.mem_cons_of_mem _ hb)⟩

/-- C4: for a single tuple variable of dimensionality `k` driven by
itself, across `count - 1 ≥ k` experiments every dimension is scaled
either `floor((count-1)/k)` or `ceil((count-1)/k)` times, and the product
of the final values equals the product of the base values times
`factor^(count-1)`. -/
theorem C4_round_robin (names : List String) (base : List Int)
    (f count : Int) (hlen : base.length = names.length) (hk0 : names ≠ [])
    (hnd : names.Nodup) (hcount : (names.length : Int) ≤ count - 1) :
    ∃ ord cols,
      configure_scaling_policy [(Key.tup names, Val.list base)]
          (Key.tup names) = .ok ord ∧
      scale_experiment_variables [(Key.tup names, Val.list base)] f count
          (some (Key.tup names)) =
        .ok (List.zipWith (fun nm c => (nm, OutVal.list c)) names cols) ∧
      cols.length = names.length ∧
      (∀ j, j < names.length →
        (cols.getD j []).length = (count - 1).toNat + 1 ∧
        lastD (cols.getD j []) =
          base.getD j 0 * f ^ dimScaleCount ord (count - 1).toNat j ∧
        (dimScaleCount ord (count - 1).toNat j =
            (count - 1).toNat / names.length ∨
          dimScaleCount ord (count - 1).toNat j =
            ((count - 1).toNat + names.length - 1) / names.length)) ∧
      (cols.map lastD).prod = base.prod * f ^ (count - 1).toNat := by
  have hkpos : 0 < names.length := List.length_pos.mpr hk0
  have hbpos : 0 < base.length := by omega
  have hbne : base ≠ [] := List.length_pos.mp hbpos
  have hs : minIndex base < base.length := minIndex_lt_length hbne
  have hn : names.length ≤ (count - 1).toNat := by
    have h1 : ((names.length : Int)).toNat ≤ (count - 1).toNat :=
      Int.toNat_le_toNat hcount
    simpa using h1
  have hlook : lookupVar [(Key.tup names, Val.list base)] (Key.tup names) =
      some (Val.list base) := by simp [lookupVar]
  have hconf : configure_scaling_policy [(Key.tup names, Val.list base)]
      (Key.tup names) =
      .ok ((List.range base.length).map
        fun i => (minIndex base + i) % base.length) := by
    cases base with
    | nil => simp at hbpos
    | cons x xs =>
        simp only [configure_scaling_policy]
        rw [show lookupVar [(Key.tup names, Val.list (x :: xs))]
            (Key.tup names) = some (Val.list (x :: xs)) from by
          simp [lookupVar]]
        rfl
  have hordlen : ((List.range base.length).map
      fun i => (minIndex base + i) % base.length).length = base.length := by
    simp
  have hordne : ((List.range base.length).map
      fun i => (minIndex base + i) % base.length) ≠ [] := by
    intro h
    rw [h] at hordlen
    simp at hordlen
    omega
  have htarget : ∀ e, ((List.range base.length).map
      fun i => (minIndex base + i) % base.length).getD
        (e % ((List.range base.length).map
          fun i => (minIndex base + i) % base.length).length) 0 =
      (minIndex base + e % base.length) % base.length := by
    intro e
    rw [hordlen, rot_getD base.length (minIndex base) (e % base.length)
      (Nat.mod_lt _ hbpos)]
  have hval : validateVars [(Key.tup names, Val.list base)] 0 =
      .ok base.length := by
    simp only [validateVars, if_true]
    rw [if_neg (show ¬names.length ≠ base.length by omega),
      if_neg (show ¬base.length ≠ base.length by simp)]
  have hrun : runSweep ((List.range base.length).map
      fun i => (minIndex base + i) % base.length) f (count - 1).toNat 0
      [(Key.tup names, base.map fun v => [v])] =
      .ok [(Key.tup names, iterCols ((List.range base.length).map
        fun i => (minIndex base + i) % base.length) f (count - 1).toNat 0
        (base.map fun v => [v]))] := by
    apply runSweep_single (Key.tup names) _ f hordne
    · intro h1 e
      have hb1 : base.length = 1 := by omega
      rw [htarget e, hb1]
      simp [Nat.mod_one]
    · simp
  have hcol0 : ∀ j, j < base.length →
      ((base.map fun v => [v]).getD j []) = [base.getD j 0] :=
    fun j hj => getD_map_singleton base j hj
  have hcols_len : (iterCols ((List.range base.length).map
      fun i => (minIndex base + i) % base.length) f (count - 1).toNat 0
      (base.map fun v => [v])).length = names.length := by
    rw [iterCols_length]
    simp [hlen]
  have hcollen : ∀ j, j < names.length →
      ((iterCols ((List.range base.length).map
        fun i => (minIndex base + i) % base.length) f (count - 1).toNat 0
        (base.map fun v => [v])).getD j []).length = (count - 1).toNat + 1 := by
    intro j hj
    rw [iterCols_col_length _ _ _ _ _ _ (by simp; omega), hcol0 j (by omega)]
    simp
    omega
  have hlast : ∀ j, j < names.length →
      lastD ((iterCols ((List.range base.length).map
        fun i => (minIndex base + i) % base.length) f (count - 1).toNat 0
        (base.map fun v => [v])).getD j []) =
      base.getD j 0 * f ^ dimScaleCount ((List.range base.length).map
        fun i => (minIndex base + i) % base.length) (count - 1).toNat j := by
    intro j hj
    rw [iterCols_lastD _ _ _ _ _ _ (by simp; omega), hcol0 j (by omega)]
    rfl
  have hfair : ∀ j, j < names.length →
      dimScaleCount ((List.range base.length).map
          fun i => (minIndex base + i) % base.length) (count - 1).toNat j =
        (count - 1).toNat / names.length ∨
      dimScaleCount ((List.range base.length).map
          fun i => (minIndex base + i) % base.length) (count - 1).toNat j =
        ((count - 1).toNat + names.length - 1) / names.length := by
    intro j hj
    have h := dimScaleCount_rot base.length (minIndex base) j (count - 1).toNat
      hs (by omega)
    rw [← hlen]
    exact h
  have hprod : ((iterCols ((List.range base.length).map
      fun i => (minIndex base + i) % base.length) f (count - 1).toNat 0
      (base.map fun v => [v])).map lastD).prod =
      base.prod * f ^ (count - 1).toNat := by
    rw [iterCols_prod _ _ _ _ _ (fun e => by
      rw [htarget e]
      simp
      exact Nat.mod_lt _ hbpos)]
    congr 1
    rw [List.map_map]
    have hid : (lastD ∘ fun v => [v]) = fun v : Int => v := by
      funext v
      rfl
    rw [hid, List.map_id']
  refine ⟨(List.range base.length).map
      fun i => (minIndex base + i) % base.length,
    iterCols ((List.range base.length).map
      fun i => (minIndex base + i) % base.length) f (count - 1).toNat 0
      (base.map fun v => [v]),
    hconf, ?_, hcols_len, fun j hj => ⟨hcollen j hj, hlast j hj, hfair j hj⟩,
    hprod⟩
  have hmem_big : ∀ c ∈ iterCols ((List.range base.length).map
      fun i => (minIndex base + i) % base.length) f (count - 1).toNat 0
      (base.map fun v => [v]), 1 < c.length := by
    intro c hc
    obtain ⟨j, hj⟩ := List.mem_iff_get?.mp hc
    have hjlt : j < names.length := by
      by_contra hge
      rw [List.get?_eq_none.mpr (by rw [hcols_len]; omega)] at hj
      cases hj
    have hcd : (iterCols ((List.range base.length).map
        fun i => (minIndex base + i) % base.length) f (count - 1).toNat 0
        (base.map fun v => [v])).getD j [] = c := by
      rw [List.getD_eq_getD_get?, hj]
      rfl
    have := hcollen j hjlt
    rw [hcd] at this
    omega
  have hup : unpackTuple names (iterCols ((List.range base.length).map
      fun i => (minIndex base + i) % base.length) f (count - 1).toNat 0
      (base.map fun v => [v])) [] =
      .ok (List.zipWith (fun nm c => (nm, OutVal.list c)) names
        (iterCols ((List.range base.length).map
          fun i => (minIndex base + i) % base.length) f (count - 1).toNat 0
          (base.map fun v => [v]))) := by
    rw [unpackTuple_zip names _ [] hnd (fun s _ => rfl)
      (by rw [hcols_len])]
    rw [zipWith_pair_congr reduceCol OutVal.list names _ (fun c hc => by
      unfold reduceCol
      rw [if_pos (hmem_big c hc)])]
    simp
  unfold scale_experiment_variables
  simp only [scaleAux, resolveDriver, ite_self]
  rw [hlook, if_neg (by simp)]
  have hinit : List.map (fun kv => (kv.1, initCols kv.2))
      [(Key.tup names, Val.list base)] =
      [(Key.tup names, base.map fun v => [v])] := rfl
  simp only [hval, hconf, hinit, hrun, unpackAll, hup]

theorem C4_round_robin_witness :
    ([4, 1] : List Int).length = (["a", "b"] : List String).length ∧
    (["a", "b"] : List String) ≠ [] ∧
    (["a", "b"] : List String).Nodup ∧
    (((["a", "b"] : List String).length : Int) ≤ 4 - 1) ∧
    (∃ ord cols,
      configure_scaling_policy [(Key.tup ["a", "b"], Val.list [4, 1])]
          (Key.tup ["a", "b"]) = .ok ord ∧
      scale_experiment_variables [(Key.tup ["a", "b"], Val.list [4, 1])] 2 4
          (some (Key.tup ["a", "b"])) =
        .ok (List.zipWith (fun nm c => (nm, OutVal.list c)) ["a", "b"] cols) ∧
      cols.length = (["a", "b"] : List String).length ∧
      (∀ j, j < (["a", "b"] : List String).length →
        (cols.getD j []).length = ((4 : Int) - 1).toNat + 1 ∧
        lastD (cols.getD j []) =
          ([4, 1] : List Int).getD j 0 *
            2 ^ dimScaleCount ord ((4 : Int) - 1).toNat j ∧
        (dimScaleCount ord ((4 : Int) - 1).toNat j =
            ((4 : Int) - 1).toNat / (["a", "b"] : List String).length ∨
          dimScaleCount ord ((4 : Int) - 1).toNat j =
            (((4 : Int) - 1).toNat + (["a", "b"] : List String).length - 1) /
              (["a", "b"] : List String).length)) ∧
      (cols.map lastD).prod = ([4, 1] : List Int).prod *
        2 ^ ((4 : Int) - 1).toNat) :=
  ⟨by decide, by decide, by decide, by decide,
    C4_round_robin ["a", "b"] [4, 1] 2 4 (by decide) (by decide) (by decide)
      (by decide)⟩
